import Mathlib

/-!
Verification of `filename_sanitizer` (src/main.py and src/folder_sorter.py).

Filenames are modelled as lists of characters (`Name`), matching Python
strings as sequences of code points.  Pure string helpers (`Path.stem`,
`Path.suffix`, slicing, the truncator, the date classifier, the unique-name
resolver, grouping) are translated directly from the source; the two
orchestrators are modelled as explicit state passing over a finite
filesystem snapshot, with per-rename outcomes injected by an oracle so that
error-isolation claims quantify over every failure pattern.
-/

/-- Filenames are sequences of characters, as in Python. -/
abbrev Name := List Char

/-- `name.startswith "."` from both orchestrators' hidden-file filter
(src/main.py line 32, src/folder_sorter.py line 56). -/
def isHiddenName : Name → Bool
  | [] => false
  | c :: _ => c = '.'

/-- Index of the last `'.'` in a name, if any (Python `name.rfind "."`,
restricted to found/not-found since pathlib only compares the result). -/
def lastDotIdx : Name → Option Nat
  | [] => none
  | c :: cs =>
    match lastDotIdx cs with
    | some i => some (i + 1)
    | none => if c = '.' then some 0 else none

/-- `pathlib.PurePath.suffix` on a bare filename: the text from the last dot
onward, provided that dot is neither the first nor the last character;
otherwise the empty string. -/
def pathSuffix (n : Name) : Name :=
  match lastDotIdx n with
  | some i => if 0 < i ∧ i < n.length - 1 then n.drop i else []
  | none => []

/-- `pathlib.PurePath.stem` on a bare filename: everything before the suffix
(the whole name when the suffix is empty). -/
def pathStem (n : Name) : Name :=
  match lastDotIdx n with
  | some i => if 0 < i ∧ i < n.length - 1 then n.take i else n
  | none => n

/-- Python slicing `s[:i]` for an arbitrary (possibly negative) bound `i`. -/
def pyTake (s : Name) (i : Int) : Name :=
  if 0 ≤ i then s.take i.toNat else s.take (s.length - (-i).toNat)

/-- `MAX_FILENAME_LENGTH` from src/main.py line 3. -/
def MAX_FILENAME_LENGTH : Nat := 100

/-- `truncate_file_name` from src/main.py lines 79-90, with the module
constant `MAX_FILENAME_LENGTH` made an explicit `maxLen` parameter:
if the name is longer than `maxLen`, keep the suffix whole and slice the
stem to `maxLen - len(suffix)` (a Python slice, so a negative budget drops
characters from the end of the stem). -/
def truncate_file_name (maxLen : Nat) (name : Name) : Name :=
  if maxLen < name.length then
    pyTake (pathStem name) ((maxLen : Int) - ((pathSuffix name).length : Int))
      ++ pathSuffix name
  else name

/-- One position of the scan of `DATE_PATTERN` (src/folder_sorter.py line 10):
does the fixed-width pattern of eight consecutive digits match here?
Python's `\d` is restricted to its ASCII meaning `0-9`. -/
def digits8 (l : Name) : Bool := 8 ≤ l.length && (l.take 8).all Char.isDigit

/-- `re.search` for the fixed-width all-digit pattern: try each start
position from the left and return the first eight-character match. -/
def findDate : Name → Option Name
  | [] => none
  | c :: cs => if digits8 (c :: cs) then some ((c :: cs).take 8) else findDate cs

/-- The f-string `f"{year}-{month}-{day}"` over the three capture groups
(4+2+2 characters) of src/folder_sorter.py lines 41-42. -/
def formatDate (d : Name) : Name :=
  d.take 4 ++ '-' :: ((d.drop 4).take 2 ++ '-' :: (d.drop 6).take 2)

/-- `extract_date_from_filename` from src/folder_sorter.py lines 33-43. -/
def extract_date_from_filename (n : Name) : Option Name :=
  match findDate n with
  | some d => some (formatDate d)
  | none => none


/-- The decimal numeral of a counter, as a sequence of characters (the text
the f-strings `f"{stem}_{counter}{suffix}"` interpolate for `counter`). -/
def natName (k : Nat) : Name := (Nat.repr k).data

/-- The collision candidate `f"{stem}_{counter}{suffix}"` built by
src/main.py line 104 and src/folder_sorter.py line 94. -/
def candName (stem sfx : Name) (c : Nat) : Name := stem ++ '_' :: (natName c ++ sfx)

/-- The `while True` collision loop of src/main.py lines 103-107 and
src/folder_sorter.py lines 93-96: try `stem_c`, `stem_(c+1)`, ... until a
name free in `taken` appears.  The loop is written with explicit fuel; a
sufficient fuel is proved below, so no behaviour is lost. -/
def findFreeName (taken : List Name) (stem sfx : Name) : Nat → Nat → Option Name
  | 0, _ => none
  | fuel + 1, c =>
    if candName stem sfx c ∈ taken then findFreeName taken stem sfx fuel (c + 1)
    else some (candName stem sfx c)

/-- The largest length of a name in a directory snapshot. -/
def maxNameLen (taken : List Name) : Nat :=
  taken.foldr (fun n acc => max n.length acc) 0

/-- `get_unique_filename` from src/main.py lines 93-107 (the inline loop of
`move_files_to_folder`, src/folder_sorter.py lines 87-96, is the same
algorithm): return `base` if it is free in the directory snapshot `taken`,
otherwise the first free counter candidate starting from 1.  The fuel
`10 ^ maxNameLen taken` always suffices, because the numeral of
`10 ^ maxNameLen taken` is longer than every name in the snapshot. -/
def get_unique_filename (taken : List Name) (base : Name) : Option Name :=
  if base ∈ taken then
    findFreeName taken (pathStem base) (pathSuffix base) (10 ^ maxNameLen taken) 1
  else some base

/-- The per-file rename decision of the length-truncation pipeline
(src/main.py lines 48-54): truncate, and only when the name changed resolve
a unique final name in the same directory. -/
def processedNameB (maxLen : Nat) (names : List Name) (name : Name) : Option Name :=
  if truncate_file_name maxLen name ≠ name then
    get_unique_filename names (truncate_file_name maxLen name)
  else some name


/-- One insertion into the `defaultdict(list)` of `group_files_by_date`:
append `f` to the bucket of key `k`, creating the bucket at the end on
first use (Python dicts iterate in key-insertion order). -/
def insertGroup : List (Option Name × List Name) → Option Name → Name →
    List (Option Name × List Name)
  | [], k, f => [(k, [f])]
  | (k1, fs) :: rest, k, f =>
    if k1 = k then (k1, fs ++ [f]) :: rest else (k1, fs) :: insertGroup rest k f

/-- `group_files_by_date` from src/folder_sorter.py lines 46-63, over the
listing of non-hidden regular file names; files without a date are grouped
under `none`. -/
def group_files_by_date (files : List Name) : List (Option Name × List Name) :=
  files.foldl (fun gs f => insertGroup gs (extract_date_from_filename f) f) []

/-- The reclassification of src/folder_sorter.py lines 121-134: date buckets
with at least two members keep their own folder (in bucket order), all other
files are concatenated onto the Unsorted overflow list in bucket order. -/
def partStep (acc : List (Name × List Name) × List Name)
    (kfs : Option Name × List Name) : List (Name × List Name) × List Name :=
  match kfs with
  | (none, fs) => (acc.1, acc.2 ++ fs)
  | (some d, fs) =>
    if 2 ≤ fs.length then (acc.1 ++ [(d, fs)], acc.2) else (acc.1, acc.2 ++ fs)

def partitionGroups (gs : List (Option Name × List Name)) :
    List (Name × List Name) × List Name :=
  gs.foldl partStep ([], [])

/-- Concatenation of the bucket values of an association list, in bucket
order. -/
def valuesConcat {α : Type} : List (α × List Name) → List Name
  | [] => []
  | (_, fs) :: rest => fs ++ valuesConcat rest


/-- A regular file in the modelled tree: parent folder (`[]` means the input
directory itself), file name, and an opaque content token used to state
that no content is lost or altered. -/
structure FSEntry where
  dir : Name
  fname : Name
  content : Nat
deriving DecidableEq

/-- Snapshot of the input directory tree: regular files plus the
`(parent, name)` directory entries. -/
structure FS where
  files : List FSEntry
  dirs : List (Name × Name)
deriving DecidableEq

/-- The names occupying directory `d` (files and subdirectories), i.e. the
set `Path.exists` consults for paths `d / name`. -/
def namesAt (fs : FS) (d : Name) : List Name :=
  (fs.files.filter (fun e => decide (e.dir = d))).map FSEntry.fname
    ++ (fs.dirs.filter (fun p => decide (p.1 = d))).map Prod.snd

/-- Remove the first file entry at path `(d, n)`, returning it and the rest. -/
def removeFirst : List FSEntry → Name → Name → Option (FSEntry × List FSEntry)
  | [], _, _ => none
  | e :: es, d, n =>
    if e.dir = d ∧ e.fname = n then some (e, es)
    else
      match removeFirst es d n with
      | some (x, rest) => some (x, e :: rest)
      | none => none

/-- `Path.rename` with POSIX semantics: fails when the source file is
missing or the destination is a directory; silently replaces a regular file
at the destination (the code prevents that case by checking existence
first - the theorems prove it never happens). -/
def renameFS (fs : FS) (sd sn dd dn : Name) : Option FS :=
  match removeFirst fs.files sd sn with
  | none => none
  | some (e, rest) =>
    if (dd, dn) ∈ fs.dirs then none
    else some
      { files := rest.filter (fun x => !(decide (x.dir = dd ∧ x.fname = dn)))
          ++ [⟨dd, dn, e.content⟩],
        dirs := fs.dirs }

/-- The multiset of file contents of a snapshot. -/
def contentsOf (fs : FS) : Multiset Nat := (fs.files.map FSEntry.content : Multiset Nat)

/-- Errors a single filesystem operation can raise, as caught by the
`except` clauses of both pipelines. -/
inductive PyErr where
  | permission
  | fileNotFound
  | fileExists
  | other
deriving DecidableEq

/-- Per-file progress reports, one per processed file. -/
inductive FileEvent where
  | renamed (src dst : Name)
  | skipped (n : Name)
  | moved (src folder : Name)
  | failed (n : Name) (e : PyErr)
deriving DecidableEq

/-- The file a progress report is about. -/
def eventName : FileEvent → Name
  | FileEvent.renamed src _ => src
  | FileEvent.skipped n => n
  | FileEvent.moved src _ => src
  | FileEvent.failed n _ => n

/-- The listing `[f for f in dir.iterdir() if f.is_file() and not
f.name.startswith "."]` shared by src/main.py line 32 and
src/folder_sorter.py lines 55-56. -/
def scanFiles (fs : FS) : List Name :=
  (fs.files.filter (fun e => decide (e.dir = []) && ! isHiddenName e.fname)).map
    FSEntry.fname

/-- One iteration of the move loop of src/folder_sorter.py lines 85-109:
resolve a free target name in the live snapshot, then attempt the rename;
the oracle injects the externally caused per-file exception, if any, and
every exception is caught and reported as a failure for this file only.
Returns the new snapshot, 1 if moved else 0, and the progress event. -/
def moveOne (fs : FS) (folder name : Name) (err : Option PyErr) :
    FS × Nat × FileEvent :=
  match get_unique_filename (namesAt fs folder) name with
  | none => (fs, 0, FileEvent.failed name PyErr.other)
  | some tname =>
    match err with
    | some e => (fs, 0, FileEvent.failed name e)
    | none =>
      match renameFS fs [] name folder tname with
      | none => (fs, 0, FileEvent.failed name PyErr.fileNotFound)
      | some fs2 => (fs2, 1, FileEvent.moved name folder)

/-- Result of one `move_files_to_folder` call: final snapshot, number of
files moved, progress events, and the uncaught exception if the initial
`mkdir` raised. -/
structure MoveResult where
  fs : FS
  moved : Nat
  events : List FileEvent
  crash : Option PyErr
deriving DecidableEq

/-- The per-file loop of `move_files_to_folder` (src/folder_sorter.py lines
85-109); `idx` is the running index used to consult the failure oracle. -/
def moveLoop (folder : Name) (oracle : Nat → Option PyErr) :
    FS → Nat → List Name → FS × Nat × List FileEvent
  | fs, _, [] => (fs, 0, [])
  | fs, idx, n :: ns =>
    let one := moveOne fs folder n (oracle idx)
    let rest := moveLoop folder oracle one.1 (idx + 1) ns
    (rest.1, one.2.1 + rest.2.1, one.2.2 :: rest.2.2)

/-- `move_files_to_folder` from src/folder_sorter.py lines 66-111:
`target_folder.mkdir(parents=True, exist_ok=True)` runs before the loop and
outside any try/except, so a regular file occupying the folder path raises
FileExistsError, which propagates to the caller. -/
def move_files_to_folder (fs : FS) (files : List Name) (target : Name)
    (oracle : Nat → Option PyErr) (startIdx : Nat) : MoveResult :=
  if ∃ e ∈ fs.files, e.dir = [] ∧ e.fname = target then
    ⟨fs, 0, [], some PyErr.fileExists⟩
  else
    let fs1 : FS :=
      { files := fs.files,
        dirs := if ([], target) ∈ fs.dirs then fs.dirs else fs.dirs ++ [([], target)] }
    let r := moveLoop target oracle fs1 startIdx files
    ⟨r.1, r.2.1, r.2.2, none⟩

/-- Accumulated state of the per-bucket loop of src/folder_sorter.py lines
149-156. -/
structure BucketAcc where
  fs : FS
  moved : Nat
  events : List FileEvent
  idx : Nat
  crash : Option PyErr
deriving DecidableEq

/-- The date-bucket loop of src/folder_sorter.py lines 149-156; a crash in
`move_files_to_folder` aborts the remaining buckets. -/
def moveBuckets (oracle : Nat → Option PyErr) :
    FS → Nat → List (Name × List Name) → BucketAcc
  | fs, idx, [] => ⟨fs, 0, [], idx, none⟩
  | fs, idx, (d, names) :: rest =>
    let r := move_files_to_folder fs names d oracle idx
    match r.crash with
    | some e => ⟨r.fs, r.moved, r.events, idx + names.length, some e⟩
    | none =>
      let acc := moveBuckets oracle r.fs (idx + names.length) rest
      ⟨acc.fs, r.moved + acc.moved, r.events ++ acc.events, acc.idx, acc.crash⟩

/-- `UNSORTED_FOLDER_NAME` from src/folder_sorter.py line 9. -/
def UNSORTED_FOLDER_NAME : Name := "Unsorted".data

/-- Terminal state of a date-sort run: the printed summary, the early
no-files exit, or an uncaught exception. -/
inductive RunA where
  | finished (total movedDates movedUnsorted : Nat)
  | noFiles
  | crashed (e : PyErr)
deriving DecidableEq

/-- Result of a whole date-sort run. -/
structure ResultA where
  fs : FS
  outcome : RunA
  events : List FileEvent
deriving DecidableEq

/-- `main` from src/folder_sorter.py lines 114-173: scan, group, reclassify,
move every kept date bucket, then the overflow bucket, and report the
summary; an exception escaping `move_files_to_folder` aborts the run. -/
def folderSorterMain (fs : FS) (oracle : Nat → Option PyErr) : ResultA :=
  let groups := group_files_by_date (scanFiles fs)
  let sorted := (partitionGroups groups).1
  let unsorted := (partitionGroups groups).2
  let total := (valuesConcat groups).length
  if total = 0 then ⟨fs, RunA.noFiles, []⟩
  else
    let acc := moveBuckets oracle fs 0 sorted
    match acc.crash with
    | some e => ⟨acc.fs, RunA.crashed e, acc.events⟩
    | none =>
      if unsorted.isEmpty then ⟨acc.fs, RunA.finished total acc.moved 0, acc.events⟩
      else
        let r := move_files_to_folder acc.fs unsorted UNSORTED_FOLDER_NAME oracle acc.idx
        match r.crash with
        | some e => ⟨r.fs, RunA.crashed e, acc.events ++ r.events⟩
        | none =>
          ⟨r.fs, RunA.finished total acc.moved r.moved, acc.events ++ r.events⟩

/-- One iteration of the rename loop of src/main.py lines 45-74: truncate,
skip when unchanged, otherwise resolve a unique name in the same directory
and rename; every exception is caught and reported for this file only. -/
def renameOne (fs : FS) (name : Name) (err : Option PyErr) : FS × FileEvent :=
  if truncate_file_name MAX_FILENAME_LENGTH name ≠ name then
    match get_unique_filename (namesAt fs []) (truncate_file_name MAX_FILENAME_LENGTH name) with
    | none => (fs, FileEvent.failed name PyErr.other)
    | some unique =>
      match err with
      | some e => (fs, FileEvent.failed name e)
      | none =>
        match renameFS fs [] name [] unique with
        | none => (fs, FileEvent.failed name PyErr.fileNotFound)
        | some fs2 => (fs2, FileEvent.renamed name unique)
  else (fs, FileEvent.skipped name)

/-- The enumerate loop of src/main.py lines 45-74. -/
def renameLoop (oracle : Nat → Option PyErr) :
    FS → Nat → List Name → FS × List FileEvent
  | fs, _, [] => (fs, [])
  | fs, idx, n :: ns =>
    let one := renameOne fs n (oracle idx)
    let rest := renameLoop oracle one.1 (idx + 1) ns
    (rest.1, one.2 :: rest.2)

def countRenamed (evts : List FileEvent) : Nat :=
  (evts.filter fun e => match e with | FileEvent.renamed _ _ => true | _ => false).length

def countSkipped (evts : List FileEvent) : Nat :=
  (evts.filter fun e => match e with | FileEvent.skipped _ => true | _ => false).length

def countFailed (evts : List FileEvent) : Nat :=
  (evts.filter fun e => match e with | FileEvent.failed _ _ => true | _ => false).length

/-- Result of a whole length-truncation run: the summary counters of
src/main.py lines 41-43 and 76 plus the per-file events. -/
structure RunBResult where
  fs : FS
  renamed : Nat
  skipped : Nat
  errors : Nat
  total : Nat
  events : List FileEvent
deriving DecidableEq

/-- `main` from src/main.py lines 27-76: scan (skipping hidden entries),
early return when no files, otherwise process each file in listing order
and report the summary.  The function is total: the loop isolates every
per-file failure. -/
def mainB (fs : FS) (oracle : Nat → Option PyErr) : RunBResult :=
  let files := scanFiles fs
  if files.length = 0 then ⟨fs, 0, 0, 0, 0, []⟩
  else
    let r := renameLoop oracle fs 1 files
    ⟨r.1, countRenamed r.2, countSkipped r.2, countFailed r.2, files.length, r.2⟩


/-- Modelled from the spec's words: the extension is "the text from the last
dot onward, or empty if there is no dot".  This differs from pathlib (and
hence from the code) exactly when the last dot is the first or the last
character of the name; it exists to compare that wording with `pathSuffix`. -/
def specSuffix (n : Name) : Name :=
  match lastDotIdx n with
  | some i => n.drop i
  | none => []

/-- Modelled from the spec's words: everything before the `specSuffix`
extension. -/
def specStem (n : Name) : Name :=
  match lastDotIdx n with
  | some i => n.take i
  | none => n

/-! ## Theorems -/

theorem pathStem_append_pathSuffix (n : Name) : pathStem n ++ pathSuffix n = n := by
  unfold pathStem pathSuffix
  cases lastDotIdx n with
  | none => simp
  | some i =>
    by_cases h : 0 < i ∧ i < n.length - 1 <;> simp [h]

theorem length_stem_add_suffix (n : Name) :
    (pathStem n).length + (pathSuffix n).length = n.length := by
  have h := congrArg List.length (pathStem_append_pathSuffix n)
  simpa using h

theorem truncate_length_le (maxLen : Nat) (name : Name)
    (h : (pathSuffix name).length ≤ maxLen) :
    (truncate_file_name maxLen name).length ≤ maxLen := by
  unfold truncate_file_name
  split
  · have hnn : (0 : Int) ≤ (maxLen : Int) - ((pathSuffix name).length : Int) := by
      omega
    have htn : ((maxLen : Int) - ((pathSuffix name).length : Int)).toNat
        = maxLen - (pathSuffix name).length := by
      omega
    simp only [pyTake, if_pos hnn, htn, List.length_append, List.length_take]
    omega
  · omega

/-- C3 (amended): the truncator is idempotent whenever the extension fits in
the maximum length. -/
theorem truncate_idempotent_of_suffix_le (maxLen : Nat) (name : Name)
    (h : (pathSuffix name).length ≤ maxLen) :
    truncate_file_name maxLen (truncate_file_name maxLen name)
      = truncate_file_name maxLen name := by
  have hlen := truncate_length_le maxLen name h
  generalize truncate_file_name maxLen name = t at hlen ⊢
  unfold truncate_file_name
  rw [if_neg (by omega)]

/-- C3 witness: a concrete run of the amended idempotence theorem. -/
theorem truncate_idempotent_witness :
    (pathSuffix ("ab.c".data)).length ≤ 5 ∧
      truncate_file_name 5 (truncate_file_name 5 ("ab.c".data))
        = truncate_file_name 5 ("ab.c".data) :=
  ⟨by decide, truncate_idempotent_of_suffix_le 5 ("ab.c".data) (by decide)⟩

/-- C3 counterexample: with an extension longer than the maximum, the Python
negative slice makes the truncator non-idempotent (`truncate 1 "a.bc"` is
`".bc"`, truncating again gives `"."`). -/
theorem truncate_not_idempotent :
    ¬ (truncate_file_name 1 (truncate_file_name 1 ("a.bc".data))
        = truncate_file_name 1 ("a.bc".data)) := by
  decide

/-- C4 (amended): with the extension taken as pathlib's suffix - the text
from the last dot onward provided that dot is neither the first nor the
last character, and empty otherwise - the truncator returns the name
unchanged when stem plus extension fit in `maxLen`, otherwise slices the
stem by the Python slice `stem[0 : maxLen - len(ext)]` and keeps the
extension whole; in every case the result ends with that full, unmodified
extension.  The spec's broader wording of "extension" fails on the code
(see the counterexample): a name whose only dot is first or last has an
empty pathlib suffix, so a trailing dot is not preserved. -/
theorem truncate_file_name_spec (maxLen : Nat) (name : Name) :
    ((pathStem name).length + (pathSuffix name).length ≤ maxLen →
      truncate_file_name maxLen name = name) ∧
    (maxLen < (pathStem name).length + (pathSuffix name).length →
      truncate_file_name maxLen name
        = pyTake (pathStem name) ((maxLen : Int) - ((pathSuffix name).length : Int))
            ++ pathSuffix name) ∧
    (∃ p, truncate_file_name maxLen name = p ++ pathSuffix name) := by
  have hlen := length_stem_add_suffix name
  refine ⟨?_, ?_, ?_⟩
  · intro h
    unfold truncate_file_name
    rw [if_neg (by omega)]
  · intro h
    unfold truncate_file_name
    rw [if_pos (by omega)]
  · by_cases h : maxLen < name.length
    · exact ⟨_, by unfold truncate_file_name; rw [if_pos h]⟩
    · refine ⟨pathStem name, ?_⟩
      unfold truncate_file_name
      rw [if_neg h, pathStem_append_pathSuffix]

/-- C4 witness: both branches of the truncator specification at concrete
inputs. -/
theorem truncate_file_name_spec_witness :
    ((pathStem ("a.txt".data)).length + (pathSuffix ("a.txt".data)).length ≤ 10 ∧
      truncate_file_name 10 ("a.txt".data) = "a.txt".data) ∧
    (3 < (pathStem ("abcd.txt".data)).length + (pathSuffix ("abcd.txt".data)).length ∧
      truncate_file_name 3 ("abcd.txt".data)
        = pyTake (pathStem ("abcd.txt".data))
            ((3 : Int) - ((pathSuffix ("abcd.txt".data)).length : Int))
            ++ pathSuffix ("abcd.txt".data)) :=
  ⟨⟨by decide, (truncate_file_name_spec 10 ("a.txt".data)).1 (by decide)⟩,
   ⟨by decide, (truncate_file_name_spec 3 ("abcd.txt".data)).2.1 (by decide)⟩⟩

theorem digits8_head (l : Name) (h : digits8 l = true) :
    ∃ c cs, l = c :: cs ∧ c.isDigit = true := by
  cases l with
  | nil => simp [digits8] at h
  | cons c cs =>
    refine ⟨c, cs, rfl, ?_⟩
    simp only [digits8, Bool.and_eq_true, List.all_eq_true] at h
    exact h.2 c (by simp [List.take_succ_cons])

theorem findDate_eq_none (n : Name) :
    findDate n = none ↔ ∀ i, digits8 (n.drop i) = false := by
  induction n with
  | nil => simp [findDate, digits8]
  | cons c cs ih =>
    constructor
    · intro h i
      unfold findDate at h
      split at h
      · exact absurd h (by simp)
      · cases i with
        | zero => simpa using ‹¬ digits8 (c :: cs) = true›
        | succ j => exact (ih.mp h) j
    · intro h
      unfold findDate
      rw [if_neg (by simpa using h 0)]
      exact ih.mpr fun i => h (i + 1)

theorem findDate_eq_some (n : Name) (i : Nat)
    (hi : digits8 (n.drop i) = true)
    (hmin : ∀ j, j < i → digits8 (n.drop j) = false) :
    findDate n = some ((n.drop i).take 8) := by
  induction n generalizing i with
  | nil => simp [digits8] at hi
  | cons c cs ih =>
    cases i with
    | zero =>
      unfold findDate
      rw [if_pos (by simpa using hi)]
      simp
    | succ j =>
      unfold findDate
      rw [if_neg (by simpa using hmin 0 (Nat.succ_pos j))]
      exact ih j (by simpa using hi) fun k hk => by
        simpa using hmin (k + 1) (by omega)

theorem findDate_of_run (n : Name) (i : Nat)
    (hbefore : (n.take i).all (fun c => !c.isDigit) = true)
    (hwin : digits8 (n.drop i) = true) :
    findDate n = some ((n.drop i).take 8) := by
  induction n generalizing i with
  | nil => simp [digits8] at hwin
  | cons c cs ih =>
    cases i with
    | zero =>
      unfold findDate
      rw [if_pos (by simpa using hwin)]
      simp
    | succ i' =>
      have hc : c.isDigit = false := by
        have := (List.all_eq_true.mp hbefore) c (by simp)
        simpa using this
      have hnot : ¬ digits8 (c :: cs) = true := by
        intro hd8
        obtain ⟨c', cs', hcons, hdig⟩ := digits8_head _ hd8
        cases hcons
        rw [hc] at hdig
        exact Bool.false_ne_true hdig
      unfold findDate
      rw [if_neg hnot]
      refine ih i' ?_ (by simpa using hwin)
      have h2 : c.isDigit = false ∧ ∀ x ∈ List.take i' cs, x.isDigit = false := by
        simpa using hbefore
      simpa [List.all_eq_true] using h2.2

/-- C6: the classifier returns the first contiguous 8-digit window of the
name, reformatted by dashes without calendar validation, and returns the
`none` sentinel exactly when no 8-digit window exists; absence of a match is
an ordinary return value.  The two examples from the specification are
included. -/
theorem extract_date_spec (n : Name) :
    ((∀ i, digits8 (n.drop i) = false) → extract_date_from_filename n = none) ∧
    (∀ i, digits8 (n.drop i) = true → (∀ j, j < i → digits8 (n.drop j) = false) →
      extract_date_from_filename n = some (formatDate ((n.drop i).take 8))) ∧
    extract_date_from_filename ("IMG_20230915_001.jpg".data) = some ("2023-09-15".data) ∧
    extract_date_from_filename ("report_final.pdf".data) = none := by
  refine ⟨?_, ?_, by decide, by decide⟩
  · intro h
    unfold extract_date_from_filename
    rw [(findDate_eq_none n).mpr h]
  · intro i hi hmin
    unfold extract_date_from_filename
    rw [findDate_eq_some n i hi hmin]

/-- C6 witness: the characterization applied at a concrete input with the
match at position 4. -/
theorem extract_date_spec_witness :
    digits8 (("IMG_20230915_001.jpg".data).drop 4) = true ∧
      extract_date_from_filename ("IMG_20230915_001.jpg".data)
        = some (formatDate ((("IMG_20230915_001.jpg".data).drop 4).take 8)) :=
  ⟨by decide,
    (extract_date_spec ("IMG_20230915_001.jpg".data)).2.1 4 (by decide)
      (by decide)⟩

/-- C9: when the first digit run of the name is longer than eight digits the
classifier still matches, using exactly the first eight digits of that run;
the concrete nine-digit run `202312345` classifies as `2023-12-34`. -/
theorem extract_date_long_run (n : Name) (i L : Nat)
    (hL : 9 ≤ L) (hiL : i + L ≤ n.length)
    (hbefore : (n.take i).all (fun c => !c.isDigit) = true)
    (hrun : ((n.drop i).take L).all Char.isDigit = true) :
    extract_date_from_filename n
      = some (formatDate ((n.drop i).take 8)) ∧
    extract_date_from_filename ("202312345".data) = some ("2023-12-34".data) := by
  refine ⟨?_, by decide⟩
  have hwin : digits8 (n.drop i) = true := by
    simp only [digits8, Bool.and_eq_true, decide_eq_true_eq, List.length_drop]
    refine ⟨by omega, ?_⟩
    rw [List.all_eq_true] at hrun ⊢
    intro x hx
    refine hrun x ?_
    have h8 : (n.drop i).take 8 = ((n.drop i).take L).take 8 := by
      rw [List.take_take, Nat.min_eq_left (by omega)]
    rw [h8] at hx
    exact List.take_subset 8 _ hx
  unfold extract_date_from_filename
  rw [findDate_of_run n i hbefore hwin]

/-- C9 witness: the long-run theorem applied to a name whose first digit run
has nine digits. -/
theorem extract_date_long_run_witness :
    extract_date_from_filename ("x202312345y".data)
      = some (formatDate ((("x202312345y".data).drop 1).take 8)) :=
  (extract_date_long_run ("x202312345y".data) 1 9 (by decide) (by decide)
    (by decide) (by decide)).1


theorem toDigitsCore_zero (n : Nat) (ds : List Char) :
    Nat.toDigitsCore 10 0 n ds = ds := rfl

theorem toDigitsCore_succ (f n : Nat) (ds : List Char) :
    Nat.toDigitsCore 10 (f + 1) n ds =
      if n / 10 = 0 then Nat.digitChar (n % 10) :: ds
      else Nat.toDigitsCore 10 f (n / 10) (Nat.digitChar (n % 10) :: ds) := rfl

theorem toDigitsCore_length_pos (f : Nat) : ∀ (n : Nat) (ds : List Char), 0 < f →
    ds.length + 1 ≤ (Nat.toDigitsCore 10 f n ds).length := by
  induction f with
  | zero => intro n ds h; omega
  | succ f ih =>
    intro n ds _
    rw [toDigitsCore_succ]
    split
    · simp
    · rcases Nat.eq_zero_or_pos f with h0 | hpos
      · subst h0; rw [toDigitsCore_zero]; simp
      · have := ih (n / 10) (Nat.digitChar (n % 10) :: ds) hpos
        simp only [List.length_cons] at this
        omega

theorem toDigitsCore_length_lb (f : Nat) : ∀ (M n : Nat) (ds : List Char),
    M < f → 10 ^ M ≤ n →
    ds.length + M + 1 ≤ (Nat.toDigitsCore 10 f n ds).length := by
  induction f with
  | zero => intro M n ds h; omega
  | succ f ih =>
    intro M n ds hMf hn
    cases M with
    | zero => simpa using toDigitsCore_length_pos (f + 1) n ds (Nat.succ_pos f)
    | succ M' =>
      have hdiv : 10 ^ M' ≤ n / 10 := by
        rw [Nat.le_div_iff_mul_le (by norm_num)]
        calc 10 ^ M' * 10 = 10 ^ (M' + 1) := by ring
          _ ≤ n := hn
      have hpow : 0 < (10:Nat) ^ M' := Nat.pos_pow_of_pos M' (by norm_num)
      have hne : ¬ n / 10 = 0 := by omega
      rw [toDigitsCore_succ, if_neg hne]
      have := ih M' (n / 10) (Nat.digitChar (n % 10) :: ds) (by omega) hdiv
      simp only [List.length_cons] at this
      omega

theorem natName_length_lb (M : Nat) : M + 1 ≤ (natName (10 ^ M)).length := by
  have h1 : natName (10 ^ M) = Nat.toDigitsCore 10 (10 ^ M + 1) (10 ^ M) [] := rfl
  rw [h1]
  have hf : M < 10 ^ M + 1 := by
    have := Nat.lt_pow_self (by norm_num : 1 < 10) M
    omega
  simpa using toDigitsCore_length_lb (10 ^ M + 1) M (10 ^ M) [] hf (le_refl _)

theorem length_le_maxNameLen (taken : List Name) (n : Name) (h : n ∈ taken) :
    n.length ≤ maxNameLen taken := by
  induction taken with
  | nil => simp at h
  | cons t ts ih =>
    rcases List.mem_cons.mp h with h1 | h1
    · subst h1; simp [maxNameLen]
    · have := ih h1
      simp only [maxNameLen, List.foldr_cons] at this ⊢
      omega

theorem candName_length (stem sfx : Name) (c : Nat) :
    (candName stem sfx c).length
      = stem.length + 1 + (natName c).length + sfx.length := by
  simp [candName, List.length_append]
  omega

theorem candName_big_not_mem (taken : List Name) (stem sfx : Name) :
    candName stem sfx (10 ^ maxNameLen taken) ∉ taken := by
  intro hmem
  have hle := length_le_maxNameLen taken _ hmem
  rw [candName_length] at hle
  have := natName_length_lb (maxNameLen taken)
  omega

theorem findFreeName_sound (taken : List Name) (stem sfx : Name) :
    ∀ (fuel c : Nat) (n : Name), findFreeName taken stem sfx fuel c = some n →
      n ∉ taken ∧ ∃ k, c ≤ k ∧ n = candName stem sfx k ∧
        ∀ j, c ≤ j → j < k → candName stem sfx j ∈ taken := by
  intro fuel
  induction fuel with
  | zero => intro c n h; simp [findFreeName] at h
  | succ fuel ih =>
    intro c n h
    unfold findFreeName at h
    split at h
    · obtain ⟨hnot, k, hck, hn, hall⟩ := ih (c + 1) n h
      refine ⟨hnot, k, by omega, hn, fun j hj1 hj2 => ?_⟩
      rcases Nat.eq_or_lt_of_le hj1 with h1 | h1
      · subst h1; assumption
      · exact hall j (by omega) hj2
    · cases h
      exact ⟨by assumption, c, le_refl c, rfl, fun j hj1 hj2 => by omega⟩

theorem findFreeName_complete (taken : List Name) (stem sfx : Name) :
    ∀ (fuel c N : Nat), c ≤ N → N < c + fuel →
      candName stem sfx N ∉ taken →
      (∀ j, c ≤ j → j < N → candName stem sfx j ∈ taken) →
      findFreeName taken stem sfx fuel c = some (candName stem sfx N) := by
  intro fuel
  induction fuel with
  | zero => intro c N h1 h2; omega
  | succ fuel ih =>
    intro c N h1 h2 hfree hmin
    unfold findFreeName
    split
    · have hcN : c < N := by
        rcases Nat.eq_or_lt_of_le h1 with h | h
        · subst h; exact absurd (by assumption) hfree
        · exact h
      exact ih (c + 1) N (by omega) (by omega) hfree
        (fun j hj1 hj2 => hmin j (by omega) hj2)
    · have hNc : N = c := by
        by_contra hne
        have : c < N := by omega
        exact absurd (hmin c (le_refl c) this) (by assumption)
      rw [hNc]

/-- C1 helper: the collision loop returns some name whenever a free
candidate lies within the fuel range. -/
theorem findFreeName_some (taken : List Name) (stem sfx : Name) :
    ∀ (fuel c N : Nat), c ≤ N → N < c + fuel → candName stem sfx N ∉ taken →
      ∃ n, findFreeName taken stem sfx fuel c = some n := by
  intro fuel
  induction fuel with
  | zero => intro c N h1 h2; omega
  | succ fuel ih =>
    intro c N h1 h2 hfree
    unfold findFreeName
    split
    · have hcN : c < N := by
        rcases Nat.eq_or_lt_of_le h1 with h | h
        · subst h; exact absurd (by assumption) hfree
        · exact h
      exact ih (c + 1) N (by omega) (by omega) hfree
    · exact ⟨_, rfl⟩

/-- C1: the unique-path resolver returns the desired name unchanged when it
is free, and otherwise the candidate `stem_N.ext` for the smallest counter
`N ≥ 1` free in the directory snapshot; the result never equals an existing
entry and the resolver always returns.  With `report.pdf` and
`report_1.pdf` both taken, resolving `report.pdf` yields `report_2.pdf`. -/
theorem get_unique_filename_spec (taken : List Name) (base : Name) :
    (base ∉ taken → get_unique_filename taken base = some base) ∧
    (base ∈ taken → ∀ N, 1 ≤ N →
      candName (pathStem base) (pathSuffix base) N ∉ taken →
      (∀ j, 1 ≤ j → j < N → candName (pathStem base) (pathSuffix base) j ∈ taken) →
      get_unique_filename taken base
        = some (candName (pathStem base) (pathSuffix base) N)) ∧
    (∀ n, get_unique_filename taken base = some n → n ∉ taken) ∧
    (∃ n, get_unique_filename taken base = some n) ∧
    get_unique_filename ["report.pdf".data, "report_1.pdf".data] ("report.pdf".data)
      = some ("report_2.pdf".data) := by
  have hbig := candName_big_not_mem taken (pathStem base) (pathSuffix base)
  have hpow : 1 ≤ 10 ^ maxNameLen taken := Nat.one_le_pow _ _ (by norm_num)
  refine ⟨?_, ?_, ?_, ?_, by decide⟩
  · intro h
    unfold get_unique_filename
    rw [if_neg h]
  · intro hmem N hN1 hfree hmin
    unfold get_unique_filename
    rw [if_pos hmem]
    have hNle : N ≤ 10 ^ maxNameLen taken := by
      by_contra hlt
      exact absurd (hmin _ hpow (by omega)) hbig
    exact findFreeName_complete taken _ _ _ 1 N hN1 (by omega) hfree hmin
  · intro n h
    unfold get_unique_filename at h
    split at h
    · exact (findFreeName_sound taken _ _ _ _ n h).1
    · cases h; assumption
  · unfold get_unique_filename
    split
    · exact findFreeName_some taken _ _ _ 1 _ hpow (by omega) hbig
    · exact ⟨base, rfl⟩

/-- C1 witness: the smallest-free-counter branch applied at the concrete
collision scenario of the specification. -/
theorem get_unique_filename_spec_witness :
    get_unique_filename ["report.pdf".data, "report_1.pdf".data] ("report.pdf".data)
      = some (candName (pathStem ("report.pdf".data)) (pathSuffix ("report.pdf".data)) 2) :=
  (get_unique_filename_spec ["report.pdf".data, "report_1.pdf".data]
      ("report.pdf".data)).2.1 (by decide) 2 (by decide) (by decide)
    (by decide)

/-- C10: in the length-truncation pipeline the collision counter is appended
after truncation with no re-truncation: when the truncated name has exactly
the maximum length but is taken, and its first counter variant is free, the
final name has length `maxLen + 2`, exceeding the configured maximum. -/
theorem processedNameB_exceeds_max (maxLen : Nat) (names : List Name) (name : Name)
    (hchanged : truncate_file_name maxLen name ≠ name)
    (hlen : (truncate_file_name maxLen name).length = maxLen)
    (htaken : truncate_file_name maxLen name ∈ names)
    (hfree : candName (pathStem (truncate_file_name maxLen name))
        (pathSuffix (truncate_file_name maxLen name)) 1 ∉ names) :
    ∃ r, processedNameB maxLen names name = some r ∧
      r.length = maxLen + 2 ∧ maxLen < r.length := by
  refine ⟨candName (pathStem (truncate_file_name maxLen name))
      (pathSuffix (truncate_file_name maxLen name)) 1, ?_, ?_, ?_⟩
  · unfold processedNameB
    rw [if_pos hchanged]
    exact (get_unique_filename_spec names (truncate_file_name maxLen name)).2.1
      htaken 1 (le_refl 1) hfree (fun j hj1 hj2 => by omega)
  · rw [candName_length]
    have hss := length_stem_add_suffix (truncate_file_name maxLen name)
    have h1 : (natName 1).length = 1 := by decide
    omega
  · rw [candName_length]
    have hss := length_stem_add_suffix (truncate_file_name maxLen name)
    have h1 : (natName 1).length = 1 := by decide
    omega

/-- C10 witness: a 101-character name truncated to exactly 100 characters
collides; the rename appends `_1` before the extension, producing 102
characters. -/
theorem processedNameB_exceeds_max_witness :
    ∃ r, processedNameB MAX_FILENAME_LENGTH
        [truncate_file_name MAX_FILENAME_LENGTH (List.replicate 97 'a' ++ ".txt".data)]
        (List.replicate 97 'a' ++ ".txt".data) = some r ∧
      r.length = MAX_FILENAME_LENGTH + 2 ∧ MAX_FILENAME_LENGTH < r.length :=
  processedNameB_exceeds_max MAX_FILENAME_LENGTH
    [truncate_file_name MAX_FILENAME_LENGTH (List.replicate 97 'a' ++ ".txt".data)]
    (List.replicate 97 'a' ++ ".txt".data)
    (by decide) (by decide) (by decide) (by decide)

theorem insertGroup_keys (gs : List (Option Name × List Name)) (k : Option Name) (f : Name) :
    (insertGroup gs k f).map Prod.fst =
      if k ∈ gs.map Prod.fst then gs.map Prod.fst else gs.map Prod.fst ++ [k] := by
  induction gs with
  | nil => simp [insertGroup]
  | cons p rest ih =>
    obtain ⟨k1, fs⟩ := p
    by_cases h : k1 = k
    · subst h
      simp [insertGroup]
    · simp only [insertGroup, if_neg h, List.map_cons, ih]
      by_cases h2 : k ∈ rest.map Prod.fst
      · simp [h2, Ne.symm h]
      · simp [h2, Ne.symm h]

theorem insertGroup_keys_sub (gs : List (Option Name × List Name)) (k k' : Option Name)
    (f : Name) (h : k' ∈ gs.map Prod.fst ∨ k' = k) :
    k' ∈ (insertGroup gs k f).map Prod.fst := by
  rw [insertGroup_keys]
  rcases h with h | h
  · split <;> simp [h]
  · subst h
    split
    · assumption
    · simp

/-- Soundness of one dict insertion: any bucket of the result is an
untouched old bucket with a different key, the old `k`-bucket with `f`
appended, or a fresh singleton bucket for a previously absent key. -/
theorem insertGroup_mem (gs : List (Option Name × List Name)) (k : Option Name)
    (f : Name) :
    (gs.map Prod.fst).Nodup → ∀ p ∈ insertGroup gs k f,
      (p.1 ≠ k ∧ p ∈ gs) ∨
      (p.1 = k ∧ ∃ fs0, p.2 = fs0 ++ [f] ∧
        ((k, fs0) ∈ gs ∨ (fs0 = [] ∧ k ∉ gs.map Prod.fst))) := by
  induction gs with
  | nil =>
    intro _ p hp
    simp only [insertGroup, List.mem_singleton] at hp
    subst hp
    exact Or.inr ⟨rfl, [], by simp⟩
  | cons q rest ih =>
    obtain ⟨k2, fs2⟩ := q
    intro hnd p hp
    simp only [List.map_cons, List.nodup_cons] at hnd
    by_cases h : k2 = k
    · subst h
      rw [insertGroup, if_pos rfl] at hp
      rcases List.mem_cons.mp hp with hp | hp
      · subst hp
        exact Or.inr ⟨rfl, fs2, rfl, Or.inl (by simp)⟩
      · have hpk : p.1 ≠ k2 := by
          intro he
          exact hnd.1 (he ▸ List.mem_map_of_mem Prod.fst hp)
        exact Or.inl ⟨hpk, List.mem_cons_of_mem _ hp⟩
    · rw [insertGroup, if_neg h] at hp
      rcases List.mem_cons.mp hp with hp | hp
      · subst hp
        exact Or.inl ⟨h, by simp⟩
      · rcases ih hnd.2 p hp with ⟨h1, h2⟩ | ⟨h1, fs0, h2, h3⟩
        · exact Or.inl ⟨h1, List.mem_cons_of_mem _ h2⟩
        · refine Or.inr ⟨h1, fs0, h2, ?_⟩
          rcases h3 with h3 | ⟨h3, h4⟩
          · exact Or.inl (List.mem_cons_of_mem _ h3)
          · refine Or.inr ⟨h3, ?_⟩
            simp only [List.map_cons, List.mem_cons]
            rintro (he | he)
            · exact h he.symm
            · exact h4 he

/-- The grouping invariant, advanced by one processed file: bucket keys stay
nodup, every bucket is exactly the filter of the processed listing by its
key, and every processed file's key owns a bucket. -/
theorem insertGroup_step (prev : List Name) (gs : List (Option Name × List Name))
    (f : Name)
    (hnd : (gs.map Prod.fst).Nodup)
    (hfil : ∀ p ∈ gs, p.2 = prev.filter
      (fun g => decide (extract_date_from_filename g = p.1)))
    (hcov : ∀ g ∈ prev, extract_date_from_filename g ∈ gs.map Prod.fst) :
    ((insertGroup gs (extract_date_from_filename f) f).map Prod.fst).Nodup ∧
    (∀ p ∈ insertGroup gs (extract_date_from_filename f) f,
      p.2 = (prev ++ [f]).filter
        (fun g => decide (extract_date_from_filename g = p.1))) ∧
    (∀ g ∈ prev ++ [f],
      extract_date_from_filename g
        ∈ (insertGroup gs (extract_date_from_filename f) f).map Prod.fst) := by
  refine ⟨?_, ?_, ?_⟩
  · rw [insertGroup_keys]
    split
    · exact hnd
    · rw [List.nodup_append]
      refine ⟨hnd, List.nodup_singleton _, ?_⟩
      intro a ha hb
      simp only [List.mem_singleton] at hb
      subst hb
      exact (by assumption : ¬ extract_date_from_filename f ∈ gs.map Prod.fst) ha
  · intro p hp
    rcases insertGroup_mem gs _ f hnd p hp with ⟨h1, h2⟩ | ⟨h1, fs0, h2, h3⟩
    · rw [hfil p h2, List.filter_append]
      have hno : ¬ (extract_date_from_filename f = p.1) := fun he => h1 he.symm
      simp [hno]
    · rcases h3 with h3 | ⟨h3, h4⟩
      · have hb := hfil (extract_date_from_filename f, fs0) h3
        simp only at hb
        rw [h2, hb, List.filter_append, h1]
        simp
      · subst h3
        have hempty : prev.filter
            (fun g => decide (extract_date_from_filename g = p.1)) = [] := by
          rw [List.filter_eq_nil_iff]
          intro g hg
          simp only [decide_eq_true_eq]
          intro he
          exact h4 (h1 ▸ he ▸ hcov g hg)
        rw [h2, List.filter_append, hempty, h1]
        simp
  · intro g hg
    rcases List.mem_append.mp hg with hg | hg
    · exact insertGroup_keys_sub _ _ _ _ (Or.inl (hcov g hg))
    · simp only [List.mem_singleton] at hg
      subst hg
      exact insertGroup_keys_sub _ _ _ _ (Or.inr rfl)

/-- The grouping invariant over the whole listing. -/
theorem group_invariant (files : List Name) : ∀ (prev : List Name)
    (gs : List (Option Name × List Name)),
    (gs.map Prod.fst).Nodup →
    (∀ p ∈ gs, p.2 = prev.filter
      (fun g => decide (extract_date_from_filename g = p.1))) →
    (∀ g ∈ prev, extract_date_from_filename g ∈ gs.map Prod.fst) →
    (((files.foldl (fun gs f => insertGroup gs (extract_date_from_filename f) f) gs).map
        Prod.fst).Nodup ∧
      (∀ p ∈ files.foldl (fun gs f => insertGroup gs (extract_date_from_filename f) f) gs,
        p.2 = (prev ++ files).filter
          (fun g => decide (extract_date_from_filename g = p.1))) ∧
      (∀ g ∈ prev ++ files, extract_date_from_filename g
        ∈ (files.foldl (fun gs f => insertGroup gs (extract_date_from_filename f) f)
            gs).map Prod.fst)) := by
  induction files with
  | nil =>
    intro prev gs h1 h2 h3
    simp only [List.foldl_nil, List.append_nil]
    exact ⟨h1, h2, h3⟩
  | cons f fs ih =>
    intro prev gs h1 h2 h3
    obtain ⟨s1, s2, s3⟩ := insertGroup_step prev gs f h1 h2 h3
    have h := ih (prev ++ [f]) (insertGroup gs (extract_date_from_filename f) f) s1 s2 s3
    simpa [List.append_assoc] using h

/-- The grouping facts used by the reclassification claim: bucket keys are
distinct, each bucket is the filter of the listing by its key, every file's
key owns a bucket. -/
theorem group_files_by_date_spec (files : List Name) :
    ((group_files_by_date files).map Prod.fst).Nodup ∧
    (∀ p ∈ group_files_by_date files,
      p.2 = files.filter (fun g => decide (extract_date_from_filename g = p.1))) ∧
    (∀ g ∈ files, extract_date_from_filename g
      ∈ (group_files_by_date files).map Prod.fst) := by
  have h := group_invariant files [] [] (by simp) (by simp) (by simp)
  simp only [List.nil_append] at h
  unfold group_files_by_date
  exact h

theorem valuesConcat_append {α : Type} (l1 l2 : List (α × List Name)) :
    valuesConcat (l1 ++ l2) = valuesConcat l1 ++ valuesConcat l2 := by
  induction l1 with
  | nil => simp [valuesConcat]
  | cons p rest ih =>
    obtain ⟨a, fs⟩ := p
    simp [valuesConcat, ih]

theorem valuesConcat_insertGroup (gs : List (Option Name × List Name))
    (k : Option Name) (f : Name) :
    (valuesConcat (insertGroup gs k f)).Perm (valuesConcat gs ++ [f]) := by
  induction gs with
  | nil => simp [insertGroup, valuesConcat]
  | cons p rest ih =>
    obtain ⟨k1, fs⟩ := p
    by_cases h : k1 = k
    · subst h
      rw [insertGroup, if_pos rfl]
      simp only [valuesConcat]
      rw [List.append_assoc, List.append_assoc]
      exact List.Perm.append_left fs List.perm_append_comm
    · rw [insertGroup, if_neg h]
      simp only [valuesConcat]
      rw [List.append_assoc]
      exact List.Perm.append_left fs ih

theorem valuesConcat_group (files : List Name) :
    ∀ gs, (valuesConcat (files.foldl
        (fun gs f => insertGroup gs (extract_date_from_filename f) f) gs)).Perm
      (valuesConcat gs ++ files) := by
  induction files with
  | nil => intro gs; simp
  | cons f fs ih =>
    intro gs
    simp only [List.foldl_cons]
    refine (ih (insertGroup gs (extract_date_from_filename f) f)).trans ?_
    have h1 := valuesConcat_insertGroup gs (extract_date_from_filename f) f
    refine (h1.append_right fs).trans ?_
    rw [List.append_assoc]
    simp

theorem partitionGroups_aux (gs : List (Option Name × List Name)) :
    ∀ (a : List (Name × List Name)) (b : List Name),
      gs.foldl partStep (a, b)
        = (a ++ (partitionGroups gs).1, b ++ (partitionGroups gs).2) := by
  induction gs with
  | nil => intro a b; simp [partitionGroups]
  | cons p rest ih =>
    intro a b
    obtain ⟨k, fs⟩ := p
    have hrest : partitionGroups ((k, fs) :: rest)
        = rest.foldl partStep (partStep ([], []) (k, fs)) := rfl
    cases k with
    | none =>
      simp only [List.foldl_cons, partStep, hrest, ih]
      simp [List.append_assoc]
    | some d =>
      by_cases h2 : 2 ≤ fs.length
      · simp only [List.foldl_cons, partStep, if_pos h2, hrest, ih]
        simp [List.append_assoc]
      · simp only [List.foldl_cons, partStep, if_neg h2, hrest, ih]
        simp [List.append_assoc]

theorem partitionGroups_cons_none (fs : List Name)
    (rest : List (Option Name × List Name)) :
    partitionGroups ((none, fs) :: rest)
      = ((partitionGroups rest).1, fs ++ (partitionGroups rest).2) := by
  have h : partitionGroups ((none, fs) :: rest)
      = rest.foldl partStep (partStep ([], []) (none, fs)) := rfl
  rw [h]
  simp [partStep, partitionGroups_aux]

theorem partitionGroups_cons_big (d : Name) (fs : List Name)
    (rest : List (Option Name × List Name)) (h2 : 2 ≤ fs.length) :
    partitionGroups ((some d, fs) :: rest)
      = ((d, fs) :: (partitionGroups rest).1, (partitionGroups rest).2) := by
  have h : partitionGroups ((some d, fs) :: rest)
      = rest.foldl partStep (partStep ([], []) (some d, fs)) := rfl
  rw [h]
  simp [partStep, if_pos h2, partitionGroups_aux]

theorem partitionGroups_cons_small (d : Name) (fs : List Name)
    (rest : List (Option Name × List Name)) (h2 : ¬ 2 ≤ fs.length) :
    partitionGroups ((some d, fs) :: rest)
      = ((partitionGroups rest).1, fs ++ (partitionGroups rest).2) := by
  have h : partitionGroups ((some d, fs) :: rest)
      = rest.foldl partStep (partStep ([], []) (some d, fs)) := rfl
  rw [h]
  simp [partStep, if_neg h2, partitionGroups_aux]

theorem partitionGroups_sorted_mem (gs : List (Option Name × List Name)) :
    ∀ d fs, (d, fs) ∈ (partitionGroups gs).1 →
      (some d, fs) ∈ gs ∧ 2 ≤ fs.length := by
  induction gs with
  | nil => intro d fs h; simp [partitionGroups] at h
  | cons p rest ih =>
    obtain ⟨k, fs2⟩ := p
    intro d fs h
    cases k with
    | none =>
      rw [partitionGroups_cons_none] at h
      obtain ⟨h1, h2⟩ := ih d fs h
      exact ⟨List.mem_cons_of_mem _ h1, h2⟩
    | some d2 =>
      by_cases h2 : 2 ≤ fs2.length
      · rw [partitionGroups_cons_big _ _ _ h2] at h
        rcases List.mem_cons.mp h with h3 | h3
        · injection h3 with ha hb
          subst ha; subst hb
          exact ⟨by simp, h2⟩
        · obtain ⟨h4, h5⟩ := ih d fs h3
          exact ⟨List.mem_cons_of_mem _ h4, h5⟩
      · rw [partitionGroups_cons_small _ _ _ h2] at h
        obtain ⟨h4, h5⟩ := ih d fs h
        exact ⟨List.mem_cons_of_mem _ h4, h5⟩

theorem partitionGroups_overflow_mem (gs : List (Option Name × List Name)) :
    ∀ f, f ∈ (partitionGroups gs).2 ↔
      ∃ k fs, (k, fs) ∈ gs ∧ f ∈ fs ∧ (k = none ∨ fs.length < 2) := by
  induction gs with
  | nil => intro f; simp [partitionGroups]
  | cons p rest ih =>
    obtain ⟨k, fs2⟩ := p
    intro f
    cases k with
    | none =>
      rw [partitionGroups_cons_none]
      simp only []
      constructor
      · intro h
        rcases List.mem_append.mp h with h1 | h1
        · exact ⟨none, fs2, by simp, h1, Or.inl rfl⟩
        · obtain ⟨k3, fs3, hm, hf, hc⟩ := (ih f).mp h1
          exact ⟨k3, fs3, List.mem_cons_of_mem _ hm, hf, hc⟩
      · rintro ⟨k3, fs3, hm, hf, hc⟩
        rcases List.mem_cons.mp hm with h1 | h1
        · injection h1 with ha hb
          subst hb
          exact List.mem_append.mpr (Or.inl hf)
        · exact List.mem_append.mpr (Or.inr ((ih f).mpr ⟨k3, fs3, h1, hf, hc⟩))
    | some d =>
      by_cases h2 : 2 ≤ fs2.length
      · rw [partitionGroups_cons_big _ _ _ h2]
        simp only []
        constructor
        · intro h
          obtain ⟨k3, fs3, hm, hf, hc⟩ := (ih f).mp h
          exact ⟨k3, fs3, List.mem_cons_of_mem _ hm, hf, hc⟩
        · rintro ⟨k3, fs3, hm, hf, hc⟩
          rcases List.mem_cons.mp hm with h1 | h1
          · injection h1 with ha hb
            subst ha; subst hb
            rcases hc with hc | hc
            · exact absurd hc (by simp)
            · omega
          · exact (ih f).mpr ⟨k3, fs3, h1, hf, hc⟩
      · rw [partitionGroups_cons_small _ _ _ h2]
        simp only []
        constructor
        · intro h
          rcases List.mem_append.mp h with h1 | h1
          · exact ⟨some d, fs2, by simp, h1, Or.inr (by omega)⟩
          · obtain ⟨k3, fs3, hm, hf, hc⟩ := (ih f).mp h1
            exact ⟨k3, fs3, List.mem_cons_of_mem _ hm, hf, hc⟩
        · rintro ⟨k3, fs3, hm, hf, hc⟩
          rcases List.mem_cons.mp hm with h1 | h1
          · injection h1 with ha hb
            subst hb
            exact List.mem_append.mpr (Or.inl hf)
          · exact List.mem_append.mpr (Or.inr ((ih f).mpr ⟨k3, fs3, h1, hf, hc⟩))

theorem partitionGroups_perm (gs : List (Option Name × List Name)) :
    (valuesConcat (partitionGroups gs).1 ++ (partitionGroups gs).2).Perm
      (valuesConcat gs) := by
  induction gs with
  | nil => simp [partitionGroups, valuesConcat]
  | cons p rest ih =>
    obtain ⟨k, fs⟩ := p
    have hmove : ∀ (A B : List Name),
        (A ++ (fs ++ B)).Perm (fs ++ (A ++ B)) := by
      intro A B
      rw [← List.append_assoc, ← List.append_assoc]
      exact List.perm_append_comm.append_right B
    cases k with
    | none =>
      rw [partitionGroups_cons_none]
      simp only [valuesConcat]
      exact (hmove _ _).trans (List.Perm.append_left fs ih)
    | some d =>
      by_cases h2 : 2 ≤ fs.length
      · rw [partitionGroups_cons_big _ _ _ h2]
        simp only [valuesConcat]
        rw [List.append_assoc]
        exact List.Perm.append_left fs ih
      · rw [partitionGroups_cons_small _ _ _ h2]
        simp only [valuesConcat]
        exact (hmove _ _).trans (List.Perm.append_left fs ih)

/-- C2: after grouping by extracted date and reclassifying, every bucket
that keeps its own date folder has at least two members and is exactly the
set of files of its date; the overflow list holds exactly the no-date files
and the files of singleton date buckets; together the two outputs are a
permutation of the input listing (no file dropped, none duplicated), and no
file is in both outputs. -/
theorem group_partition_spec (files : List Name) :
    (∀ d fs, (d, fs) ∈ (partitionGroups (group_files_by_date files)).1 →
      2 ≤ fs.length ∧
      fs = files.filter (fun g => decide (extract_date_from_filename g = some d))) ∧
    ((valuesConcat (partitionGroups (group_files_by_date files)).1
        ++ (partitionGroups (group_files_by_date files)).2).Perm files) ∧
    (∀ f, f ∈ (partitionGroups (group_files_by_date files)).2 ↔
      f ∈ files ∧ (extract_date_from_filename f = none ∨
        (files.filter (fun g => decide
          (extract_date_from_filename g = extract_date_from_filename f))).length = 1)) ∧
    (∀ f, f ∈ (partitionGroups (group_files_by_date files)).2 →
      ∀ d fs, (d, fs) ∈ (partitionGroups (group_files_by_date files)).1 → f ∉ fs) := by
  obtain ⟨hnd, hfil, hcov⟩ := group_files_by_date_spec files
  have hsorted : ∀ d fs, (d, fs) ∈ (partitionGroups (group_files_by_date files)).1 →
      2 ≤ fs.length ∧
      fs = files.filter (fun g => decide (extract_date_from_filename g = some d)) := by
    intro d fs h
    obtain ⟨hm, hlen⟩ := partitionGroups_sorted_mem _ d fs h
    exact ⟨hlen, hfil (some d, fs) hm⟩
  have hover : ∀ f, f ∈ (partitionGroups (group_files_by_date files)).2 ↔
      f ∈ files ∧ (extract_date_from_filename f = none ∨
        (files.filter (fun g => decide
          (extract_date_from_filename g = extract_date_from_filename f))).length = 1) := by
    intro f
    constructor
    · intro h
      obtain ⟨k, fs, hm, hf, hc⟩ := (partitionGroups_overflow_mem _ f).mp h
      have hfs := hfil (k, fs) hm
      simp only at hfs
      rw [hfs, List.mem_filter] at hf
      obtain ⟨hfin, hkey⟩ := hf
      have hkey' : extract_date_from_filename f = k := by simpa using hkey
      refine ⟨hfin, ?_⟩
      rcases hc with hc | hc
      · exact Or.inl (hc ▸ hkey')
      · refine Or.inr ?_
        rw [hkey']
        rw [hfs] at hc
        have hpos : 0 < fs.length :=
          List.length_pos.mpr (List.ne_nil_of_mem (hfs ▸ List.mem_filter.mpr ⟨hfin, hkey⟩))
        rw [hfs] at hpos
        omega
    · rintro ⟨hfin, hc⟩
      have hk := hcov f hfin
      obtain ⟨p, hp, hp1⟩ := List.mem_map.mp hk
      obtain ⟨k, fs⟩ := p
      simp only at hp1
      subst hp1
      have hfs := hfil (extract_date_from_filename f, fs) hp
      simp only at hfs
      have hf2 : f ∈ fs := by
        rw [hfs, List.mem_filter]
        exact ⟨hfin, by simp⟩
      refine (partitionGroups_overflow_mem _ f).mpr
        ⟨extract_date_from_filename f, fs, hp, hf2, ?_⟩
      rcases hc with hc | hc
      · exact Or.inl hc
      · refine Or.inr ?_
        rw [hfs, hc]
        omega
  refine ⟨hsorted, ?_, hover, ?_⟩
  · have hg := valuesConcat_group files []
    simp only [valuesConcat, List.nil_append] at hg
    exact (partitionGroups_perm _).trans hg
  · intro f hov d fs hs hmem
    obtain ⟨hlen2, hfs⟩ := hsorted d fs hs
    have hkey : extract_date_from_filename f = some d := by
      rw [hfs, List.mem_filter] at hmem
      simpa using hmem.2
    rcases ((hover f).mp hov).2 with hc | hc
    · rw [hkey] at hc
      cases hc
    · rw [hkey] at hc
      rw [← hfs] at hc
      omega

/-- C2 witness: in the listing `a_20240101.txt`, `b_20240101.txt`, `c.txt`,
the dateless `c.txt` lands in the overflow output. -/
theorem group_partition_spec_witness :
    "c.txt".data ∈ (partitionGroups (group_files_by_date
      ["a_20240101.txt".data, "b_20240101.txt".data, "c.txt".data])).2 :=
  ((group_partition_spec
      ["a_20240101.txt".data, "b_20240101.txt".data, "c.txt".data]).2.2.1
    ("c.txt".data)).mpr ⟨by decide, Or.inl (by decide)⟩

/-- The resolver never returns a name already present in the snapshot
(shared by the orchestrator lemmas). -/
theorem get_unique_not_mem (taken : List Name) (base n : Name)
    (h : get_unique_filename taken base = some n) : n ∉ taken := by
  unfold get_unique_filename at h
  split at h
  · exact (findFreeName_sound taken _ _ _ _ n h).1
  · cases h; assumption

theorem removeFirst_some (l : List FSEntry) (d n : Name) (x : FSEntry)
    (rest : List FSEntry) (h : removeFirst l d n = some (x, rest)) :
    x.dir = d ∧ x.fname = n ∧ l.Perm (x :: rest) ∧ ∀ y ∈ rest, y ∈ l := by
  induction l generalizing rest with
  | nil => simp [removeFirst] at h
  | cons e es ih =>
    unfold removeFirst at h
    split at h
    · cases h
      rename_i hcond
      exact ⟨hcond.1, hcond.2, List.Perm.refl _, fun y hy => List.mem_cons_of_mem _ hy⟩
    · revert h
      split
      · rename_i x2 rest2 hrec
        intro h
        cases h
        obtain ⟨h1, h2, h3, h4⟩ := ih rest2 hrec
        refine ⟨h1, h2, ?_, ?_⟩
        · exact (List.Perm.cons e h3).trans (List.Perm.swap _ _ _)
        · intro y hy
          rcases List.mem_cons.mp hy with hy | hy
          · simp [hy]
          · exact List.mem_cons_of_mem _ (h4 y hy)
      · intro h
        cases h

theorem removeFirst_keep (l : List FSEntry) (d n : Name) (x : FSEntry)
    (rest : List FSEntry) (h : removeFirst l d n = some (x, rest)) :
    ∀ y ∈ l, ¬(y.dir = d ∧ y.fname = n) → y ∈ rest := by
  induction l generalizing rest with
  | nil => simp [removeFirst] at h
  | cons e es ih =>
    unfold removeFirst at h
    split at h
    · cases h
      intro y hy hn
      rcases List.mem_cons.mp hy with hy | hy
      · exact absurd (hy ▸ (by assumption)) hn
      · exact hy
    · revert h
      split
      · rename_i x2 rest2 hrec
        intro h
        cases h
        intro y hy hn
        rcases List.mem_cons.mp hy with hy | hy
        · simp [hy]
        · exact List.mem_cons_of_mem _ (ih rest2 hrec y hy hn)
      · intro h
        cases h

theorem renameFS_contents (fs : FS) (sd sn dd dn : Name) (fs2 : FS)
    (h : renameFS fs sd sn dd dn = some fs2)
    (hdst : ∀ e ∈ fs.files, ¬(e.dir = dd ∧ e.fname = dn)) :
    contentsOf fs2 = contentsOf fs := by
  unfold renameFS at h
  revert h
  split
  · intro h; cases h
  · rename_i x rest hrem
    intro h
    split at h
    · cases h
    · cases h
      obtain ⟨h1, h2, h3, h4⟩ := removeFirst_some fs.files sd sn x rest hrem
      have hfil : rest.filter (fun y => !(decide (y.dir = dd ∧ y.fname = dn))) = rest := by
        rw [List.filter_eq_self]
        intro y hy
        simp only [Bool.not_eq_true', decide_eq_false_iff_not]
        exact hdst y (h4 y hy)
      unfold contentsOf
      rw [Multiset.coe_eq_coe]
      refine List.Perm.trans ?_ (List.Perm.map FSEntry.content h3.symm)
      rw [hfil]
      simp only [List.map_append, List.map_cons, List.map_nil]
      exact List.perm_append_comm.trans (by simp)

theorem renameFS_keep (fs : FS) (sd sn dd dn : Name) (fs2 : FS) (e : FSEntry)
    (h : renameFS fs sd sn dd dn = some fs2)
    (he : e ∈ fs.files)
    (hsrc : ¬(e.dir = sd ∧ e.fname = sn))
    (hdst : ∀ x ∈ fs.files, ¬(x.dir = dd ∧ x.fname = dn)) :
    e ∈ fs2.files := by
  unfold renameFS at h
  revert h
  split
  · intro h; cases h
  · rename_i x rest hrem
    intro h
    split at h
    · cases h
    · cases h
      simp only [List.mem_append]
      refine Or.inl ?_
      rw [List.mem_filter]
      refine ⟨removeFirst_keep fs.files sd sn x rest hrem e he hsrc, ?_⟩
      simp only [Bool.not_eq_true', decide_eq_false_iff_not]
      exact hdst e he

theorem not_mem_namesAt (fs : FS) (d n : Name) (h : n ∉ namesAt fs d) :
    ∀ e ∈ fs.files, ¬(e.dir = d ∧ e.fname = n) := by
  intro e he hc
  refine h ?_
  unfold namesAt
  refine List.mem_append.mpr (Or.inl ?_)
  refine List.mem_map.mpr ⟨e, ?_, hc.2⟩
  rw [List.mem_filter]
  exact ⟨he, by simp [hc.1]⟩

theorem moveOne_contents (fs : FS) (folder name : Name) (err : Option PyErr) :
    contentsOf (moveOne fs folder name err).1 = contentsOf fs := by
  unfold moveOne
  split
  · rfl
  · rename_i tname hres
    have hfree := not_mem_namesAt fs folder tname
      (get_unique_not_mem (namesAt fs folder) name tname hres)
    split
    · rfl
    · split
      · rfl
      · rename_i fs2 hren
        exact renameFS_contents fs [] name folder tname fs2 hren hfree

theorem moveOne_keep (fs : FS) (folder name : Name) (err : Option PyErr)
    (e : FSEntry) (he : e ∈ fs.files) (hsrc : ¬(e.dir = [] ∧ e.fname = name)) :
    e ∈ (moveOne fs folder name err).1.files := by
  unfold moveOne
  split
  · exact he
  · rename_i tname hres
    have hfree := not_mem_namesAt fs folder tname
      (get_unique_not_mem (namesAt fs folder) name tname hres)
    split
    · exact he
    · split
      · exact he
      · rename_i fs2 hren
        exact renameFS_keep fs [] name folder tname fs2 e hren he hsrc hfree

theorem moveOne_root_sub (fs : FS) (folder name : Name) (err : Option PyErr) :
    ∀ e ∈ (moveOne fs folder name err).1.files, e ∈ fs.files ∨ e.dir = folder := by
  unfold moveOne
  split
  · intro e he; exact Or.inl he
  · rename_i tname hres
    split
    · intro e he; exact Or.inl he
    · split
      · intro e he; exact Or.inl he
      · rename_i fs2 hren
        intro e he
        unfold renameFS at hren
        revert hren
        split
        · intro hc; cases hc
        · rename_i x rest hrem
          intro hren
          split at hren
          · cases hren
          · cases hren
            simp only [List.mem_append] at he
            rcases he with he | he
            · obtain ⟨_, _, _, h4⟩ := removeFirst_some fs.files [] name x rest hrem
              exact Or.inl (h4 e (List.mem_of_mem_filter he))
            · simp only [List.mem_singleton] at he
              subst he
              exact Or.inr rfl

theorem moveLoop_contents (folder : Name) (oracle : Nat → Option PyErr)
    (names : List Name) : ∀ (fs : FS) (idx : Nat),
    contentsOf (moveLoop folder oracle fs idx names).1 = contentsOf fs := by
  induction names with
  | nil => intro fs idx; rfl
  | cons n ns ih =>
    intro fs idx
    unfold moveLoop
    simp only []
    rw [ih, moveOne_contents]

theorem moveLoop_events (folder : Name) (oracle : Nat → Option PyErr)
    (names : List Name) : ∀ (fs : FS) (idx : Nat),
    (moveLoop folder oracle fs idx names).2.2.map eventName = names := by
  induction names with
  | nil => intro fs idx; rfl
  | cons n ns ih =>
    intro fs idx
    unfold moveLoop
    simp only [List.map_cons]
    rw [ih]
    congr 1
    unfold moveOne
    split
    · rfl
    · split
      · rfl
      · split
        · rfl
        · rfl

theorem moveLoop_keep (folder : Name) (oracle : Nat → Option PyErr)
    (names : List Name) : ∀ (fs : FS) (idx : Nat) (e : FSEntry),
    e ∈ fs.files → (∀ n ∈ names, ¬(e.dir = [] ∧ e.fname = n)) →
    e ∈ (moveLoop folder oracle fs idx names).1.files := by
  induction names with
  | nil => intro fs idx e he _; exact he
  | cons n ns ih =>
    intro fs idx e he hn
    unfold moveLoop
    simp only []
    exact ih _ _ e (moveOne_keep fs folder n (oracle idx) e he (hn n (by simp)))
      (fun m hm => hn m (by simp [hm]))

theorem moveLoop_root_sub (folder : Name) (oracle : Nat → Option PyErr)
    (names : List Name) : ∀ (fs : FS) (idx : Nat),
    ∀ e ∈ (moveLoop folder oracle fs idx names).1.files,
      e ∈ fs.files ∨ e.dir = folder := by
  induction names with
  | nil => intro fs idx e he; exact Or.inl he
  | cons n ns ih =>
    intro fs idx e he
    unfold moveLoop at he
    simp only [] at he
    rcases ih _ _ e he with h | h
    · exact moveOne_root_sub fs folder n (oracle idx) e h
    · exact Or.inr h

theorem move_files_contents (fs : FS) (files : List Name) (target : Name)
    (oracle : Nat → Option PyErr) (startIdx : Nat) :
    contentsOf (move_files_to_folder fs files target oracle startIdx).fs
      = contentsOf fs := by
  unfold move_files_to_folder
  split
  · rfl
  · simp only []
    rw [moveLoop_contents]
    rfl

theorem move_files_keep (fs : FS) (files : List Name) (target : Name)
    (oracle : Nat → Option PyErr) (startIdx : Nat) (e : FSEntry)
    (he : e ∈ fs.files) (hn : ∀ n ∈ files, ¬(e.dir = [] ∧ e.fname = n)) :
    e ∈ (move_files_to_folder fs files target oracle startIdx).fs.files := by
  unfold move_files_to_folder
  split
  · exact he
  · simp only []
    exact moveLoop_keep target oracle files _ startIdx e he hn

theorem move_files_root_sub (fs : FS) (files : List Name) (target : Name)
    (oracle : Nat → Option PyErr) (startIdx : Nat) :
    ∀ e ∈ (move_files_to_folder fs files target oracle startIdx).fs.files,
      e ∈ fs.files ∨ e.dir = target := by
  unfold move_files_to_folder
  split
  · intro e he; exact Or.inl he
  · simp only []
    intro e he
    have h2 := moveLoop_root_sub target oracle files
      { files := fs.files,
        dirs := if ([], target) ∈ fs.dirs then fs.dirs else fs.dirs ++ [([], target)] }
      startIdx e he
    exact h2

theorem move_files_no_crash (fs : FS) (files : List Name) (target : Name)
    (oracle : Nat → Option PyErr) (startIdx : Nat)
    (h : ¬ ∃ e ∈ fs.files, e.dir = [] ∧ e.fname = target) :
    (move_files_to_folder fs files target oracle startIdx).crash = none := by
  unfold move_files_to_folder
  rw [if_neg h]

theorem move_files_events (fs : FS) (files : List Name) (target : Name)
    (oracle : Nat → Option PyErr) (startIdx : Nat)
    (h : (move_files_to_folder fs files target oracle startIdx).crash = none) :
    (move_files_to_folder fs files target oracle startIdx).events.map eventName
      = files := by
  unfold move_files_to_folder at h ⊢
  split at h
  · cases h
  · rename_i hno
    rw [if_neg hno]
    simp only []
    exact moveLoop_events target oracle files _ startIdx

theorem move_files_events_crash (fs : FS) (files : List Name) (target : Name)
    (oracle : Nat → Option PyErr) (startIdx : Nat)
    (h : ¬ (move_files_to_folder fs files target oracle startIdx).crash = none) :
    (move_files_to_folder fs files target oracle startIdx).events = [] := by
  unfold move_files_to_folder at h ⊢
  split at h
  · rename_i hyes
    rw [if_pos hyes]
  · rename_i hno
    exact absurd rfl h

theorem moveBuckets_contents (oracle : Nat → Option PyErr)
    (buckets : List (Name × List Name)) : ∀ (fs : FS) (idx : Nat),
    contentsOf (moveBuckets oracle fs idx buckets).fs = contentsOf fs := by
  induction buckets with
  | nil => intro fs idx; rfl
  | cons p rest ih =>
    obtain ⟨d, names⟩ := p
    intro fs idx
    unfold moveBuckets
    simp only []
    split
    · exact move_files_contents fs names d oracle idx
    · simp only []
      rw [ih, move_files_contents]

theorem moveBuckets_keep (oracle : Nat → Option PyErr)
    (buckets : List (Name × List Name)) : ∀ (fs : FS) (idx : Nat) (e : FSEntry),
    e ∈ fs.files →
    (∀ p ∈ buckets, ∀ n ∈ p.2, ¬(e.dir = [] ∧ e.fname = n)) →
    e ∈ (moveBuckets oracle fs idx buckets).fs.files := by
  induction buckets with
  | nil => intro fs idx e he _; exact he
  | cons p rest ih =>
    obtain ⟨d, names⟩ := p
    intro fs idx e he hn
    unfold moveBuckets
    simp only []
    split
    · exact move_files_keep fs names d oracle idx e he
        (fun n hm => hn (d, names) (by simp) n hm)
    · simp only []
      exact ih _ _ e
        (move_files_keep fs names d oracle idx e he
          (fun n hm => hn (d, names) (by simp) n hm))
        (fun q hq n hm => hn q (by simp [hq]) n hm)

theorem moveBuckets_root_sub (oracle : Nat → Option PyErr)
    (buckets : List (Name × List Name)) : ∀ (fs : FS) (idx : Nat),
    (∀ p ∈ buckets, p.1 ≠ ([] : Name)) →
    ∀ e ∈ (moveBuckets oracle fs idx buckets).fs.files, e.dir = [] → e ∈ fs.files := by
  induction buckets with
  | nil => intro fs idx _ e he _; exact he
  | cons p rest ih =>
    obtain ⟨d, names⟩ := p
    intro fs idx hK e he hroot
    unfold moveBuckets at he
    simp only [] at he
    split at he
    · rcases move_files_root_sub fs names d oracle idx e he with h | h
      · exact h
      · exact absurd (hroot ▸ h.symm) (hK (d, names) (by simp))
    · simp only [] at he
      have h2 := ih _ _ (fun q hq => hK q (by simp [hq])) e he hroot
      rcases move_files_root_sub fs names d oracle idx e h2 with h | h
      · exact h
      · exact absurd (hroot ▸ h.symm) (hK (d, names) (by simp))

theorem moveBuckets_no_crash (oracle : Nat → Option PyErr)
    (buckets : List (Name × List Name)) : ∀ (fs : FS) (idx : Nat),
    (∀ p ∈ buckets, p.1 ≠ ([] : Name)) →
    (∀ p ∈ buckets, ¬ ∃ e ∈ fs.files, e.dir = [] ∧ e.fname = p.1) →
    (moveBuckets oracle fs idx buckets).crash = none := by
  induction buckets with
  | nil => intro fs idx _ _; rfl
  | cons p rest ih =>
    obtain ⟨d, names⟩ := p
    intro fs idx hK hNo
    unfold moveBuckets
    simp only []
    split
    · rename_i e hc
      have := move_files_no_crash fs names d oracle idx (hNo (d, names) (by simp))
      rw [this] at hc
      cases hc
    · simp only []
      refine ih _ _ (fun q hq => hK q (by simp [hq])) ?_
      intro q hq ⟨e, he, h1, h2⟩
      refine hNo q (by simp [hq]) ?_
      refine ⟨e, ?_, h1, h2⟩
      rcases move_files_root_sub fs names d oracle idx e he with h | h
      · exact h
      · exact absurd (h1 ▸ h.symm) (hK (d, names) (by simp))

theorem moveBuckets_events (oracle : Nat → Option PyErr)
    (buckets : List (Name × List Name)) : ∀ (fs : FS) (idx : Nat),
    (moveBuckets oracle fs idx buckets).crash = none →
    (moveBuckets oracle fs idx buckets).events.map eventName
      = valuesConcat buckets := by
  induction buckets with
  | nil => intro fs idx _; rfl
  | cons p rest ih =>
    obtain ⟨d, names⟩ := p
    intro fs idx hcr
    unfold moveBuckets at hcr ⊢
    simp only [] at hcr ⊢
    split at hcr
    · cases hcr
    · rename_i hc
      simp only [] at hcr
      simp only [valuesConcat, List.map_append]
      rw [move_files_events fs names d oracle idx hc, ih _ _ hcr]

theorem renameOne_contents (fs : FS) (name : Name) (err : Option PyErr) :
    contentsOf (renameOne fs name err).1 = contentsOf fs := by
  unfold renameOne
  split
  · split
    · rfl
    · rename_i unique hres
      have hfree := not_mem_namesAt fs [] unique
        (get_unique_not_mem (namesAt fs []) _ unique hres)
      split
      · rfl
      · split
        · rfl
        · rename_i fs2 hren
          exact renameFS_contents fs [] name [] unique fs2 hren hfree
  · rfl

theorem renameOne_keep (fs : FS) (name : Name) (err : Option PyErr)
    (e : FSEntry) (he : e ∈ fs.files) (hsrc : ¬(e.dir = [] ∧ e.fname = name)) :
    e ∈ (renameOne fs name err).1.files := by
  unfold renameOne
  split
  · split
    · exact he
    · rename_i unique hres
      have hfree := not_mem_namesAt fs [] unique
        (get_unique_not_mem (namesAt fs []) _ unique hres)
      split
      · exact he
      · split
        · exact he
        · rename_i fs2 hren
          exact renameFS_keep fs [] name [] unique fs2 e hren he hsrc hfree
  · exact he

theorem renameOne_event_name (fs : FS) (name : Name) (err : Option PyErr) :
    eventName (renameOne fs name err).2 = name := by
  unfold renameOne
  split
  · split
    · rfl
    · split
      · rfl
      · split
        · rfl
        · rfl
  · rfl

theorem renameOne_event_cases (fs : FS) (name : Name) (err : Option PyErr) :
    (∃ d, (renameOne fs name err).2 = FileEvent.renamed name d) ∨
    (renameOne fs name err).2 = FileEvent.skipped name ∨
    (∃ e, (renameOne fs name err).2 = FileEvent.failed name e) := by
  unfold renameOne
  split
  · split
    · exact Or.inr (Or.inr ⟨_, rfl⟩)
    · split
      · exact Or.inr (Or.inr ⟨_, rfl⟩)
      · split
        · exact Or.inr (Or.inr ⟨_, rfl⟩)
        · exact Or.inl ⟨_, rfl⟩
  · exact Or.inr (Or.inl rfl)

theorem renameOne_event_not_moved (fs : FS) (name : Name) (err : Option PyErr) :
    (match (renameOne fs name err).2 with
     | FileEvent.moved _ _ => (0 : Nat)
     | _ => 1) = 1 := by
  rcases renameOne_event_cases fs name err with ⟨d, h⟩ | h | ⟨e, h⟩ <;> rw [h]

theorem renameLoop_contents (oracle : Nat → Option PyErr) (names : List Name) :
    ∀ (fs : FS) (idx : Nat),
    contentsOf (renameLoop oracle fs idx names).1 = contentsOf fs := by
  induction names with
  | nil => intro fs idx; rfl
  | cons n ns ih =>
    intro fs idx
    unfold renameLoop
    simp only []
    rw [ih, renameOne_contents]

theorem renameLoop_keep (oracle : Nat → Option PyErr) (names : List Name) :
    ∀ (fs : FS) (idx : Nat) (e : FSEntry),
    e ∈ fs.files → (∀ n ∈ names, ¬(e.dir = [] ∧ e.fname = n)) →
    e ∈ (renameLoop oracle fs idx names).1.files := by
  induction names with
  | nil => intro fs idx e he _; exact he
  | cons n ns ih =>
    intro fs idx e he hn
    unfold renameLoop
    simp only []
    exact ih _ _ e (renameOne_keep fs n (oracle idx) e he (hn n (by simp)))
      (fun m hm => hn m (by simp [hm]))

theorem renameLoop_events (oracle : Nat → Option PyErr) (names : List Name) :
    ∀ (fs : FS) (idx : Nat),
    (renameLoop oracle fs idx names).2.map eventName = names := by
  induction names with
  | nil => intro fs idx; rfl
  | cons n ns ih =>
    intro fs idx
    unfold renameLoop
    simp only [List.map_cons]
    rw [ih, renameOne_event_name]

theorem counts_cons (ev : FileEvent) (l : List FileEvent) :
    countRenamed (ev :: l) + countSkipped (ev :: l) + countFailed (ev :: l)
      = (countRenamed l + countSkipped l + countFailed l)
        + (match ev with | FileEvent.moved _ _ => (0 : Nat) | _ => 1) := by
  cases ev <;>
    simp [countRenamed, countSkipped, countFailed, List.filter_cons] <;> omega

theorem renameLoop_counts (oracle : Nat → Option PyErr) (names : List Name) :
    ∀ (fs : FS) (idx : Nat),
    countRenamed (renameLoop oracle fs idx names).2
        + countSkipped (renameLoop oracle fs idx names).2
        + countFailed (renameLoop oracle fs idx names).2
      = names.length := by
  induction names with
  | nil => intro fs idx; rfl
  | cons n ns ih =>
    intro fs idx
    unfold renameLoop
    simp only []
    rw [counts_cons, ih, renameOne_event_not_moved]
    simp

theorem scanFiles_not_hidden (fs : FS) :
    ∀ n ∈ scanFiles fs, isHiddenName n = false := by
  intro n hn
  unfold scanFiles at hn
  obtain ⟨e, he, hname⟩ := List.mem_map.mp hn
  rw [List.mem_filter] at he
  have h2 := he.2
  simp only [Bool.and_eq_true, Bool.not_eq_true'] at h2
  exact hname ▸ h2.2

/-- C7: over a whole run of either pipeline, no file is deleted and no
file's content is altered: the multiset of file contents of the final
snapshot equals that of the initial snapshot, for every starting snapshot
and every per-file failure pattern (each mutation is a rename whose
destination was checked to be free). -/
theorem no_file_lost (fs : FS) (oracle : Nat → Option PyErr) :
    contentsOf (folderSorterMain fs oracle).fs = contentsOf fs ∧
    contentsOf (mainB fs oracle).fs = contentsOf fs := by
  constructor
  · unfold folderSorterMain
    simp only []
    split
    · rfl
    · split
      · simp only []
        exact moveBuckets_contents oracle _ fs 0
      · split
        · simp only []
          exact moveBuckets_contents oracle _ fs 0
        · split
          · simp only []
            rw [move_files_contents]
            exact moveBuckets_contents oracle _ fs 0
          · simp only []
            rw [move_files_contents]
            exact moveBuckets_contents oracle _ fs 0
  · unfold mainB
    simp only []
    split
    · rfl
    · simp only []
      exact renameLoop_contents oracle _ fs 1

theorem extract_some_ne_nil (g d : Name)
    (h : extract_date_from_filename g = some d) : d ≠ [] := by
  unfold extract_date_from_filename at h
  revert h
  split
  · rename_i w hw
    intro h
    cases h
    intro hnil
    have hlen := congrArg List.length hnil
    simp only [formatDate, List.length_append, List.length_cons,
      List.length_nil] at hlen
    omega
  · intro h
    cases h

theorem sorted_names_sub (scan : List Name) :
    ∀ p ∈ (partitionGroups (group_files_by_date scan)).1, ∀ n ∈ p.2, n ∈ scan := by
  intro p hp n hn
  obtain ⟨d, fsb⟩ := p
  obtain ⟨hm, _⟩ := partitionGroups_sorted_mem _ d fsb hp
  have hfil := (group_files_by_date_spec scan).2.1 (some d, fsb) hm
  simp only at hfil
  rw [hfil] at hn
  exact List.mem_of_mem_filter hn

theorem overflow_names_sub (scan : List Name) :
    ∀ n ∈ (partitionGroups (group_files_by_date scan)).2, n ∈ scan := by
  intro n hn
  obtain ⟨k, fsb, hm, hf, _⟩ := (partitionGroups_overflow_mem _ n).mp hn
  have hfil := (group_files_by_date_spec scan).2.1 (k, fsb) hm
  simp only at hfil
  rw [hfil] at hf
  exact List.mem_of_mem_filter hf

theorem sorted_keys_ne_nil (scan : List Name) :
    ∀ p ∈ (partitionGroups (group_files_by_date scan)).1, p.1 ≠ ([] : Name) := by
  intro p hp
  obtain ⟨d, fsb⟩ := p
  obtain ⟨hm, hlen⟩ := partitionGroups_sorted_mem _ d fsb hp
  have hfil := (group_files_by_date_spec scan).2.1 (some d, fsb) hm
  simp only at hfil
  have hne : fsb ≠ [] := by
    intro h
    rw [h] at hlen
    simp at hlen
  obtain ⟨g, hg⟩ := List.exists_mem_of_ne_nil fsb hne
  rw [hfil, List.mem_filter] at hg
  have hext : extract_date_from_filename g = some d := by simpa using hg.2
  intro hnil
  exact extract_some_ne_nil g d hext hnil

theorem scan_length_eq (scan : List Name) :
    (valuesConcat (group_files_by_date scan)).length = scan.length := by
  have hg := valuesConcat_group scan []
  simp only [valuesConcat, List.nil_append] at hg
  have h2 : valuesConcat (group_files_by_date scan)
      = valuesConcat (scan.foldl
          (fun gs f => insertGroup gs (extract_date_from_filename f) f) []) := rfl
  rw [h2]
  exact hg.length_eq

/-- C8: directory entries whose name starts with a dot are excluded from
consideration entirely by both pipelines: such an entry of the input
directory is still present, unchanged, after either whole run; its name is
not in the processed listing; and both reported totals count exactly the
non-hidden listing. -/
theorem hidden_files_untouched (fs : FS) (oracle : Nat → Option PyErr)
    (e : FSEntry) (he : e ∈ fs.files) (hd : e.dir = [])
    (hh : isHiddenName e.fname = true) :
    e ∈ (folderSorterMain fs oracle).fs.files ∧
    e ∈ (mainB fs oracle).fs.files ∧
    e.fname ∉ scanFiles fs ∧
    (mainB fs oracle).total = (scanFiles fs).length ∧
    (valuesConcat (group_files_by_date (scanFiles fs))).length
      = (scanFiles fs).length := by
  have hnotsrc : ∀ n ∈ scanFiles fs, ¬(e.dir = [] ∧ e.fname = n) := by
    intro n hn ⟨_, hfn⟩
    have := scanFiles_not_hidden fs n hn
    rw [← hfn] at this
    rw [hh] at this
    cases this
  refine ⟨?_, ?_, ?_, ?_, scan_length_eq _⟩
  · unfold folderSorterMain
    simp only []
    have hsortsub : ∀ p ∈ (partitionGroups (group_files_by_date (scanFiles fs))).1,
        ∀ n ∈ p.2, ¬(e.dir = [] ∧ e.fname = n) :=
      fun p hp n hn => hnotsrc n (sorted_names_sub _ p hp n hn)
    have hoversub : ∀ n ∈ (partitionGroups (group_files_by_date (scanFiles fs))).2,
        ¬(e.dir = [] ∧ e.fname = n) :=
      fun n hn => hnotsrc n (overflow_names_sub _ n hn)
    split
    · exact he
    · split
      · simp only []
        exact moveBuckets_keep oracle _ fs 0 e he hsortsub
      · split
        · simp only []
          exact moveBuckets_keep oracle _ fs 0 e he hsortsub
        · split
          · simp only []
            exact move_files_keep _ _ _ oracle _ e
              (moveBuckets_keep oracle _ fs 0 e he hsortsub) hoversub
          · simp only []
            exact move_files_keep _ _ _ oracle _ e
              (moveBuckets_keep oracle _ fs 0 e he hsortsub) hoversub
  · unfold mainB
    simp only []
    split
    · exact he
    · simp only []
      exact renameLoop_keep oracle _ fs 1 e he hnotsrc
  · intro hmem
    have := scanFiles_not_hidden fs e.fname hmem
    rw [hh] at this
    cases this
  · unfold mainB
    simp only []
    split
    · rename_i h0
      simp only []
      omega
    · rfl

/-- C8 witness: a concrete snapshot containing the hidden root file
`.hidden`, which survives both runs unchanged. -/
theorem hidden_files_untouched_witness :
    (⟨[], ".hidden".data, 3⟩ : FSEntry) ∈
      (folderSorterMain
        ⟨[⟨[], "a_20240101.txt".data, 0⟩, ⟨[], "b_20240101.txt".data, 1⟩,
          ⟨[], ".hidden".data, 3⟩], []⟩ (fun _ => none)).fs.files :=
  (hidden_files_untouched
    ⟨[⟨[], "a_20240101.txt".data, 0⟩, ⟨[], "b_20240101.txt".data, 1⟩,
      ⟨[], ".hidden".data, 3⟩], []⟩ (fun _ => none)
    ⟨[], ".hidden".data, 3⟩ (by decide) (by decide) (by decide)).1

theorem valuesConcat_group_perm (scan : List Name) :
    (valuesConcat (group_files_by_date scan)).Perm scan := by
  have hg := valuesConcat_group scan []
  simp only [valuesConcat, List.nil_append] at hg
  exact hg

theorem folderSorterMain_outcome (fs : FS) (oracle : Nat → Option PyErr)
    (hA1 : ∀ p ∈ (partitionGroups (group_files_by_date (scanFiles fs))).1,
      ¬ ∃ e ∈ fs.files, e.dir = [] ∧ e.fname = p.1)
    (hA2 : (partitionGroups (group_files_by_date (scanFiles fs))).2 ≠ [] →
      ¬ ∃ e ∈ fs.files, e.dir = [] ∧ e.fname = UNSORTED_FOLDER_NAME) :
    (scanFiles fs = [] → (folderSorterMain fs oracle).outcome = RunA.noFiles) ∧
    (scanFiles fs ≠ [] → ∃ mD mU, (folderSorterMain fs oracle).outcome
      = RunA.finished (scanFiles fs).length mD mU) ∧
    ((folderSorterMain fs oracle).events.map eventName).Perm (scanFiles fs) := by
  have hK := sorted_keys_ne_nil (scanFiles fs)
  have hcrash : (moveBuckets oracle fs 0
      (partitionGroups (group_files_by_date (scanFiles fs))).1).crash = none :=
    moveBuckets_no_crash oracle _ fs 0 hK hA1
  have hlen := scan_length_eq (scanFiles fs)
  have hperm0 : (valuesConcat (partitionGroups (group_files_by_date (scanFiles fs))).1
      ++ (partitionGroups (group_files_by_date (scanFiles fs))).2).Perm
      (scanFiles fs) :=
    (partitionGroups_perm _).trans (valuesConcat_group_perm _)
  unfold folderSorterMain
  simp only []
  split
  · rename_i h0
    have hscan : scanFiles fs = [] := by
      rw [← List.length_eq_zero]
      omega
    refine ⟨fun _ => rfl, fun hne => absurd hscan hne, ?_⟩
    rw [hscan]
    simp
  · rename_i h0
    have hscanne : scanFiles fs ≠ [] := by
      intro hscan
      refine h0 ?_
      rw [hlen, hscan]
      rfl
    split
    · rename_i e heq
      rw [hcrash] at heq
      cases heq
    · split
      · rename_i hempt
        have hunil : (partitionGroups (group_files_by_date (scanFiles fs))).2 = [] := by
          simpa [List.isEmpty_iff] using hempt
        refine ⟨fun habs => absurd habs hscanne, fun _ => ⟨_, 0, by rw [hlen]⟩, ?_⟩
        simp only []
        rw [moveBuckets_events oracle _ fs 0 hcrash]
        have := hperm0
        rw [hunil, List.append_nil] at this
        exact this
      · rename_i hempt
        have hune : (partitionGroups (group_files_by_date (scanFiles fs))).2 ≠ [] := by
          simpa [List.isEmpty_iff] using hempt
        have hnoU : ¬ ∃ e ∈ (moveBuckets oracle fs 0
            (partitionGroups (group_files_by_date (scanFiles fs))).1).fs.files,
            e.dir = [] ∧ e.fname = UNSORTED_FOLDER_NAME := by
          rintro ⟨e, he, h1, h2⟩
          refine hA2 hune ⟨e, ?_, h1, h2⟩
          exact moveBuckets_root_sub oracle _ fs 0 hK e he h1
        have hcr2 := move_files_no_crash (moveBuckets oracle fs 0
            (partitionGroups (group_files_by_date (scanFiles fs))).1).fs
          (partitionGroups (group_files_by_date (scanFiles fs))).2
          UNSORTED_FOLDER_NAME oracle (moveBuckets oracle fs 0
            (partitionGroups (group_files_by_date (scanFiles fs))).1).idx hnoU
        split
        · rename_i e heq
          rw [hcr2] at heq
          cases heq
        · refine ⟨fun habs => absurd habs hscanne, fun _ => ⟨_, _, by rw [hlen]⟩, ?_⟩
          simp only [List.map_append]
          rw [moveBuckets_events oracle _ fs 0 hcrash, move_files_events _ _ _ _ _ hcr2]
          exact hperm0

/-- C5 (amended): in the length-truncation pipeline every per-file failure
is caught and the run always reaches the summary, whose counters sum to the
total and whose events name each listed file; in the date-sort pipeline the
same per-file isolation holds for the move loop, but only under the extra
condition that no regular file occupies a needed folder name - creating a
destination folder happens outside the per-file try/except, so such a
failure aborts the run (see the counterexample).  Under that condition the
run always terminates in the summary state with one event per listed
file. -/
theorem error_isolation_spec (fs : FS) (oracle : Nat → Option PyErr)
    (hA1 : ∀ p ∈ (partitionGroups (group_files_by_date (scanFiles fs))).1,
      ¬ ∃ e ∈ fs.files, e.dir = [] ∧ e.fname = p.1)
    (hA2 : (partitionGroups (group_files_by_date (scanFiles fs))).2 ≠ [] →
      ¬ ∃ e ∈ fs.files, e.dir = [] ∧ e.fname = UNSORTED_FOLDER_NAME) :
    ((mainB fs oracle).renamed + (mainB fs oracle).skipped
        + (mainB fs oracle).errors = (mainB fs oracle).total) ∧
    ((mainB fs oracle).events.map eventName = scanFiles fs) ∧
    (scanFiles fs = [] → (folderSorterMain fs oracle).outcome = RunA.noFiles) ∧
    (scanFiles fs ≠ [] → ∃ mD mU, (folderSorterMain fs oracle).outcome
      = RunA.finished (scanFiles fs).length mD mU) ∧
    ((folderSorterMain fs oracle).events.map eventName).Perm (scanFiles fs) := by
  obtain ⟨h1, h2, h3⟩ := folderSorterMain_outcome fs oracle hA1 hA2
  refine ⟨?_, ?_, h1, h2, h3⟩
  · unfold mainB
    simp only []
    split
    · rfl
    · simp only []
      exact renameLoop_counts oracle _ fs 1
  · unfold mainB
    simp only []
    split
    · rename_i h0
      have hscan : scanFiles fs = [] := by
        rw [← List.length_eq_zero]
        omega
      rw [hscan]
      rfl
    · simp only []
      exact renameLoop_events oracle _ fs 1

/-- C5 counterexample: with a regular root file named `2024-01-01` alongside
two files dated 2024-01-01, the date-sort run raises FileExistsError in
`mkdir` outside the per-file try/except and aborts before the summary, even
though no per-file operation failed. -/
theorem sorter_mkdir_crashes :
    (folderSorterMain
      ⟨[⟨[], "a_20240101.txt".data, 0⟩, ⟨[], "b_20240101.txt".data, 1⟩,
        ⟨[], "2024-01-01".data, 2⟩], []⟩ (fun _ => none)).outcome
      = RunA.crashed PyErr.fileExists := by
  decide

/-- C5 witness: on a clean snapshot the amended theorem yields a summary
counting every listed file. -/
theorem error_isolation_spec_witness :
    scanFiles (⟨[⟨[], "a_20240101.txt".data, 0⟩, ⟨[], "b_20240101.txt".data, 1⟩,
        ⟨[], "c.txt".data, 2⟩], []⟩ : FS) ≠ [] ∧
    ∃ mD mU, (folderSorterMain
      ⟨[⟨[], "a_20240101.txt".data, 0⟩, ⟨[], "b_20240101.txt".data, 1⟩,
        ⟨[], "c.txt".data, 2⟩], []⟩ (fun _ => none)).outcome
      = RunA.finished (scanFiles
          (⟨[⟨[], "a_20240101.txt".data, 0⟩, ⟨[], "b_20240101.txt".data, 1⟩,
            ⟨[], "c.txt".data, 2⟩], []⟩ : FS)).length mD mU :=
  ⟨by decide,
    (error_isolation_spec
      ⟨[⟨[], "a_20240101.txt".data, 0⟩, ⟨[], "b_20240101.txt".data, 1⟩,
        ⟨[], "c.txt".data, 2⟩], []⟩ (fun _ => none)
      (by decide) (by decide)).2.2.2.1 (by decide)⟩


/-- C4 counterexample: for the 101-character name `"a" * 100 ++ "."` and
maximum length 100, the spec-worded extension (text from the last dot
onward) is `"."`, so the claim predicts the first 99 characters of the stem
followed by the preserved dot; the code's pathlib suffix is empty for a
trailing dot, and the name is cut to its first 100 characters, dropping the
dot. -/
theorem truncate_spec_suffix_counterexample :
    truncate_file_name MAX_FILENAME_LENGTH (List.replicate 100 'a' ++ ".".data)
      = List.replicate 100 'a' ∧
    specSuffix (List.replicate 100 'a' ++ ".".data) = ".".data ∧
    truncate_file_name MAX_FILENAME_LENGTH (List.replicate 100 'a' ++ ".".data)
      ≠ pyTake (specStem (List.replicate 100 'a' ++ ".".data))
          ((MAX_FILENAME_LENGTH : Int)
            - ((specSuffix (List.replicate 100 'a' ++ ".".data)).length : Int))
        ++ specSuffix (List.replicate 100 'a' ++ ".".data) := by
  decide
